import Mathlib

/-!
Verification development for the JPTextNormTF repository (src/JPTextNormTF/core.py),
class DateNormalizer: a Japanese number and date normalizer.

The embedding works over `List Char` (the character list of a Python `str`).
Python machine-level details modelled explicitly:
  * Python exceptions are modelled by `Option`: a function that can raise
    returns `none` on the raising path (`calendar.monthrange` raises
    `IllegalMonthError` for a month outside 1..12, and `re.sub` propagates it).
  * Python `int` is unbounded; all numeral values here are `Nat` (they are
    built from digit tables and unsigned decimal parses), except the resolved
    year in `makeRepl`, which is an `Int` because the Python code computes
    `era_base + year - 1` over `int`.
  * The regex character class `\d` and the method `str.isdigit` are modelled
    as the ASCII digits `0`-`9` together with the fullwidth digits `０`-`９`:
    these are exactly the decimal-digit characters the program's own tables
    (`FW_MAP`, the regex classes) manipulate.
  * Each regex of `replace_dates` is embedded as a hand-translated scanner.
    Every quantifier in those regexes is a greedy run over a character class
    followed by a character outside the class, so the regex semantics is
    exactly "maximal run, then check the bound": `X+年` matches the maximal
    `X`-run iff it is nonempty and followed by `年`, `\d{1,2}[./]` matches
    iff the maximal digit run has length 1 or 2 and is followed by the
    separator, `Y{2,4}年` matches iff the maximal `Y`-run has length 2..4
    and is followed by `年`, and `\d{4}[./]` matches iff the maximal digit
    run has length exactly 4 and is followed by the separator.
    `re.compile(pat).sub(repl, txt)` scans positions left to right, replaces
    the leftmost match and resumes after the consumed span; the scanner
    `subPassFuel` does the same (fuel = length of the text suffices because
    every match consumes at least one character).
-/

namespace DateNormalizer

/-- `KANJI_NUM` table: kanji digit to value. -/
def KANJI_NUM (c : Char) : Option Nat :=
  if c == '零' then some 0
  else if c == '〇' then some 0
  else if c == '一' then some 1
  else if c == '二' then some 2
  else if c == '三' then some 3
  else if c == '四' then some 4
  else if c == '五' then some 5
  else if c == '六' then some 6
  else if c == '七' then some 7
  else if c == '八' then some 8
  else if c == '九' then some 9
  else none

/-- `UNIT_SMALL` table. -/
def UNIT_SMALL (c : Char) : Option Nat :=
  if c == '十' then some 10
  else if c == '百' then some 100
  else if c == '千' then some 1000
  else none

/-- `UNIT_LARGE` table. -/
def UNIT_LARGE (c : Char) : Option Nat :=
  if c == '万' then some 10000
  else if c == '億' then some 100000000
  else if c == '兆' then some 1000000000000
  else none

/-- Model of the Unicode decimal digits (category Nd): the characters matched
by the regex class `\d` and accepted by Python `int`.  The model carries the
ASCII, fullwidth, Arabic-Indic and Devanagari digit blocks as representatives;
the remaining Nd blocks behave identically (digit value, `\d`, `int`). -/
def isPyDecimal (c : Char) : Bool :=
  ('0' ≤ c && c ≤ '9') || ('０' ≤ c && c ≤ '９') ||
  ('٠' ≤ c && c ≤ '٩') || ('०' ≤ c && c ≤ '९')

/-- Model of Python `str.isdigit`: true on the decimal (Nd) digits and also on
Numeric_Type=Digit characters that `int` rejects — the superscript and
subscript digits stand for the latter (e.g. `'²'.isdigit()` is true while
`int('²')` raises `ValueError`). -/
def str_isdigit (c : Char) : Bool :=
  isPyDecimal c || c == '¹' || c == '²' || c == '³' || c == '⁰' ||
  ('⁴' ≤ c && c ≤ '⁹') || ('₀' ≤ c && c ≤ '₉')

/-- Digit value of a decimal digit character, by block. -/
def pyDigitVal (c : Char) : Nat :=
  if '0' ≤ c && c ≤ '9' then c.toNat - '0'.toNat
  else if '０' ≤ c && c ≤ '９' then c.toNat - '０'.toNat
  else if '٠' ≤ c && c ≤ '٩' then c.toNat - '٠'.toNat
  else c.toNat - '०'.toNat

/-- Value of the decimal digit string `d₀d₁…`. -/
def decDigits (l : List Nat) : Nat := l.foldl (fun a d => a * 10 + d) 0

/-- The `digits` list collected by the no-units branch of `kanji_to_int`:
`str(KANJI_NUM[ch])` for a kanji digit, `ch` itself when `ch.isdigit()`,
all other characters skipped. -/
def collectDigits (s : List Char) : List Char :=
  s.filterMap fun ch =>
    match KANJI_NUM ch with
    | some v => some (Nat.digitChar v)
    | none => if str_isdigit ch then some ch else none

/-- Python `int` applied to a string of digit characters: the decimal value
when every character is a decimal (Nd) digit, and a raised `ValueError`
(here `none`) otherwise — `str.isdigit` accepts `'²'` but `int` does not. -/
def pyInt (l : List Char) : Option Nat :=
  if l.all isPyDecimal then some (decDigits (l.map pyDigitVal)) else none

/-- Loop of `parse_small`: `num` is overwritten by each kanji digit, a small
unit multiplies the pending digit (1 when none) into `total`. -/
def parseSmallGo : List Char → Nat → Nat → Nat
  | [], total, num => total + num
  | ch :: rest, total, num =>
    match KANJI_NUM ch with
    | some v => parseSmallGo rest total v
    | none =>
      match UNIT_SMALL ch with
      | some u => parseSmallGo rest (total + (if num = 0 then 1 else num) * u) 0
      | none => parseSmallGo rest total num

/-- `DateNormalizer.parse_small`. -/
def parse_small (s : List Char) : Nat := parseSmallGo s 0 0

/-- Loop of the units branch of `kanji_to_int`: `current` accumulates the
characters since the last large unit; a large unit multiplies
`parse_small(current)` (1 when that is 0) by its value. -/
def unitsGo : List Char → Nat → List Char → Nat
  | [], total, current => total + parse_small current
  | ch :: rest, total, current =>
    match UNIT_LARGE ch with
    | some v =>
      let val := parse_small current
      unitsGo rest (total + (if val = 0 then 1 else val) * v) []
    | none => unitsGo rest total (current ++ [ch])

/-- `DateNormalizer.kanji_to_int`.  The units branch cannot raise; the digit
branch ends in `int(''.join(digits))`, which raises (`none`) when a collected
`isdigit` character is not a decimal digit. -/
def kanji_to_int (s : List Char) : Option Nat :=
  if s = [] then some 0
  else if s.any (fun ch => (UNIT_SMALL ch).isSome || (UNIT_LARGE ch).isSome) then
    some (unitsGo s 0 [])
  else if collectDigits s = [] then some 0
  else pyInt (collectDigits s)

/-- `DateNormalizer.normalize_number`: the era-year-1 token `元` maps to 1, a
string fully matching `\d+` is parsed as decimal (which cannot raise),
everything else goes to `kanji_to_int`. -/
def normalize_number (s : List Char) : Option Nat :=
  if s = ['元'] then some 1
  else if !s.isEmpty && s.all isPyDecimal then some (decDigits (s.map pyDigitVal))
  else kanji_to_int s

/-- Decimal digits of `n`, most significant first (what `"%d" % n` prints);
structural fuel recursion, `n + 1` fuel always suffices. -/
def toDecAux : Nat → Nat → List Char
  | 0, _ => []
  | fuel + 1, n =>
    if n < 10 then [Nat.digitChar n]
    else toDecAux fuel (n / 10) ++ [Nat.digitChar (n % 10)]

/-- Decimal representation of a natural number. -/
def toDec (n : Nat) : List Char := toDecAux (n + 1) n

/-- `"%0wd"` formatting of a nonnegative value: left-pad with `'0'` to width
`w` (wider values are printed in full, as in Python). -/
def natPad (w : Nat) (n : Nat) : List Char :=
  List.replicate (w - (toDec n).length) '0' ++ toDec n

/-- `"%0wd"` formatting of a Python `int` (for a negative value Python prints
the sign and pads the whole signed form to width `w`). -/
def intPad (w : Nat) (n : Int) : List Char :=
  if n < 0 then '-' :: natPad (w - 1) n.natAbs else natPad w n.toNat

/-- The canonical output `f"{year:04d}-{month:02d}-{day:02d}"`. -/
def fmtDate (year : Int) (month day : Nat) : List Char :=
  intPad 4 year ++ ('-' :: natPad 2 month) ++ ('-' :: natPad 2 day)

/-- Modelled from Python's `calendar.isleap`: `year % 4 == 0 and
(year % 100 != 0 or year % 400 == 0)` (Python `%` on an `int` is `Int.emod`). -/
def isleap (y : Int) : Bool :=
  (y % 4 == 0) && (!(y % 100 == 0) || (y % 400 == 0))

/-- Month lengths of Python's `calendar.mdays` table (index by month). -/
def mdaysVal (m : Nat) : Nat :=
  match m with
  | 1 => 31 | 2 => 28 | 3 => 31 | 4 => 30 | 5 => 31 | 6 => 30
  | 7 => 31 | 8 => 31 | 9 => 30 | 10 => 31 | 11 => 30 | 12 => 31
  | _ => 0

/-- Modelled from Python's `calendar.monthrange(year, month)[1]`: the number
of days in the month; raises `IllegalMonthError` (here `none`) unless
`1 <= month <= 12`. -/
def monthrange (year : Int) (month : Nat) : Option Nat :=
  if 1 ≤ month ∧ month ≤ 12 then
    some (mdaysVal month + (if month == 2 && isleap year then 1 else 0))
  else none

/-- The resolved year of `_make_repl`: the parsed era-year value, shifted by
`era_base + year - 1` when an era base is given. -/
def makeYear (y0 : Nat) (eraBase : Option Nat) : Int :=
  match eraBase with
  | some b => (b : Int) + (y0 : Int) - 1
  | none => (y0 : Int)

/-- `_make_repl(era_year, month, day_str, era_base)` inside `replace_dates`:
resolves the captured groups to the canonical date string, in the source's
evaluation order (year, then month, then day).  `none` models a raised
exception: `IllegalMonthError` from `calendar.monthrange`, or `ValueError`
from an `int` call inside `normalize_number`.  Note that the final character
of `day_str` is always stripped before parsing the day. -/
def makeRepl (eraYear month dayStr : List Char) (eraBase : Option Nat) : Option (List Char) :=
  (normalize_number eraYear).bind fun y0 =>
  (normalize_number month).bind fun m =>
  if dayStr = ['末', '日'] then
    (monthrange (makeYear y0 eraBase) m).map
      (fun d => fmtDate (makeYear y0 eraBase) m d)
  else
    (normalize_number dayStr.dropLast).map fun d =>
      fmtDate (makeYear y0 eraBase) m d

/-- `ERA_MAP` restricted to the alternation `(明治|大正|昭和|平成|令和)`:
first Gregorian year of the era named by the two characters. -/
def eraBase (a b : Char) : Option Nat :=
  if a == '明' && b == '治' then some 1868
  else if a == '大' && b == '正' then some 1912
  else if a == '昭' && b == '和' then some 1926
  else if a == '平' && b == '成' then some 1989
  else if a == '令' && b == '和' then some 2019
  else none

/-- `ERA_ABBR_MAP` for the class `[RHSTM]`. -/
def abbrEraBase (c : Char) : Option Nat :=
  if c == 'R' then some 2019
  else if c == 'H' then some 1989
  else if c == 'S' then some 1926
  else if c == 'T' then some 1912
  else if c == 'M' then some 1868
  else none

/-- The class `kanji_num_chars = [元\d一二三四五六七八九十百〇]`. -/
def isK (c : Char) : Bool :=
  c == '元' || isPyDecimal c ||
    (c == '一' || c == '二' || c == '三' || c == '四' || c == '五' || c == '六' ||
     c == '七' || c == '八' || c == '九' || c == '十' || c == '百' || c == '〇')

/-- The year class `[０-９\d〇一二三四五六七八九十百千]` of the Gregorian pass. -/
def isY (c : Char) : Bool :=
  isPyDecimal c ||
    (c == '〇' || c == '一' || c == '二' || c == '三' || c == '四' || c == '五' ||
     c == '六' || c == '七' || c == '八' || c == '九' || c == '十' || c == '百' ||
     c == '千')

/-- The abbreviated-era year class `[元\d]`. -/
def isAbbrNum (c : Char) : Bool := c == '元' || isPyDecimal c

/-- One greedy regex component `cls{…}sep`: the maximal `cls`-run, whose
length must satisfy `ok`, followed by one character satisfying `sep`.
Returns the run and the text after the separator.  (For every quantifier in
the four patterns the separator is outside the repeated class, so greedy
matching succeeds exactly on the maximal run.) -/
def boundedRun (cls : Char → Bool) (ok : Nat → Bool) (sep : Char → Bool)
    (l : List Char) : Option (List Char × List Char) :=
  if ok (l.takeWhile cls).length then
    match l.dropWhile cls with
    | c :: r => if sep c then some (l.takeWhile cls, r) else none
    | [] => none
  else none

/-- Length condition of a `+` quantifier. -/
def plusOk (n : Nat) : Bool := n != 0

/-- Length condition of the `{1,2}` quantifier. -/
def oneTwo (n : Nat) : Bool := n == 1 || n == 2

/-- The separator class `[年./]`. -/
def sepY (c : Char) : Bool := c == '年' || c == '.' || c == '/'

/-- The separator class `[月./]`. -/
def sepM (c : Char) : Bool := c == '月' || c == '.' || c == '/'

/-- The separator class `[./]`. -/
def sepDot (c : Char) : Bool := c == '.' || c == '/'

/-- The day alternative `(末日|cls+日)` of the era and Gregorian patterns:
returns the captured group and the number of characters consumed. -/
def dayGroup (cls : Char → Bool) (r : List Char) : Option (List Char × Nat) :=
  match r with
  | '末' :: '日' :: _ => some (['末', '日'], 2)
  | _ =>
    match r.dropWhile cls with
    | '日' :: _ =>
      if (r.takeWhile cls).isEmpty then none
      else some (r.takeWhile cls ++ ['日'], (r.takeWhile cls).length + 1)
    | _ => none

/-- The day alternative `(末日|\d{1,2})` of the abbreviated pattern: the digit
branch captures at most two digits and no trailing `日`. -/
def abbrDay (r : List Char) : Option (List Char × Nat) :=
  match r with
  | '末' :: '日' :: _ => some (['末', '日'], 2)
  | _ =>
    if (r.takeWhile isPyDecimal).isEmpty then none
    else some ((r.takeWhile isPyDecimal).take 2, ((r.takeWhile isPyDecimal).take 2).length)

/-- Matcher for `(明治|大正|昭和|平成|令和)(K+)年(K+)月(末日|K+日)` at the head
of `l`: consumed length, era base year and the three captured groups. -/
def eraMatch (l : List Char) : Option (Nat × Nat × List Char × List Char × List Char) :=
  match l with
  | a :: b :: rest =>
    (eraBase a b).bind fun base =>
    (boundedRun isK plusOk (· == '年') rest).bind fun (yrun, r2) =>
    (boundedRun isK plusOk (· == '月') r2).bind fun (mrun, r4) =>
    (dayGroup isK r4).map fun (d, dlen) =>
      (2 + yrun.length + 1 + mrun.length + 1 + dlen, base, yrun, mrun, d)
  | _ => none

/-- Matcher for `([０-９\d〇一二三四五六七八九十百千]{2,4})年(K+)月(末日|K+日)`. -/
def seirekiMatch (l : List Char) : Option (Nat × List Char × List Char × List Char) :=
  (boundedRun isY (fun n => decide (2 ≤ n) && decide (n ≤ 4)) (· == '年') l).bind
    fun (yrun, r2) =>
  (boundedRun isK plusOk (· == '月') r2).bind fun (mrun, r4) =>
  (dayGroup isK r4).map fun (d, dlen) =>
    (yrun.length + 1 + mrun.length + 1 + dlen, yrun, mrun, d)

/-- Matcher for `([RHSTM])([元\d]+)[年./](\d{1,2})[月./](末日|\d{1,2})日?`. -/
def abbrMatch (l : List Char) : Option (Nat × Nat × List Char × List Char × List Char) :=
  match l with
  | c :: rest =>
    (abbrEraBase c).bind fun base =>
    (boundedRun isAbbrNum plusOk sepY rest).bind fun (yrun, r2) =>
    (boundedRun isPyDecimal oneTwo sepM r2).bind fun (mrun, r4) =>
    (abbrDay r4).map fun (d, dlen) =>
      let extra :=
        match r4.drop dlen with
        | '日' :: _ => 1
        | _ => 0
      (1 + yrun.length + 1 + mrun.length + 1 + dlen + extra, base, yrun, mrun, d)
  | [] => none

/-- Matcher for `(\d{4})[./](\d{1,2})[./](\d{1,2})`. -/
def delimMatch (l : List Char) : Option (Nat × List Char × List Char × List Char) :=
  (boundedRun isPyDecimal (fun n => n == 4) sepDot l).bind fun (yrun, r2) =>
  (boundedRun isPyDecimal oneTwo sepDot r2).bind fun (mrun, r4) =>
  if (r4.takeWhile isPyDecimal).isEmpty then none
  else
    some (yrun.length + 1 + mrun.length + 1 + ((r4.takeWhile isPyDecimal).take 2).length,
      yrun, mrun, (r4.takeWhile isPyDecimal).take 2)

/-- Replacement `era_repl`. -/
def eraRepl (g : Nat × List Char × List Char × List Char) : Option (List Char) :=
  makeRepl g.2.1 g.2.2.1 g.2.2.2 (some g.1)

/-- Replacement `seireki_repl` (no era base). -/
def seirekiRepl (g : List Char × List Char × List Char) : Option (List Char) :=
  makeRepl g.1 g.2.1 g.2.2 none

/-- Replacement `abbr_repl`. -/
def abbrRepl (g : Nat × List Char × List Char × List Char) : Option (List Char) :=
  makeRepl g.2.1 g.2.2.1 g.2.2.2 (some g.1)

/-- Replacement of the delimiter pass: `f"{int(y):04d}-{int(m):02d}-{int(d):02d}"`. -/
def delimRepl (g : List Char × List Char × List Char) : Option (List Char) :=
  some (fmtDate (decDigits (g.1.map pyDigitVal))
    (decDigits (g.2.1.map pyDigitVal)) (decDigits (g.2.2.map pyDigitVal)))

/-- One `re.sub` pass: scan left to right, replace each leftmost match and
resume after it, propagating a raised exception (`none`) from the
replacement function. Structural fuel recursion; every match consumes at
least one character, so fuel = length of the text is enough. -/
def subPassFuel (m : List Char → Option (Nat × γ)) (repl : γ → Option (List Char)) :
    Nat → List Char → Option (List Char)
  | 0, _ => some []
  | _ + 1, [] => some []
  | fuel + 1, c :: rest =>
    match m (c :: rest) with
    | none => (subPassFuel m repl fuel rest).map (c :: ·)
    | some (k, g) =>
      (repl g).bind fun r =>
      (subPassFuel m repl fuel (rest.drop (k - 1))).bind fun tail =>
      some (r ++ tail)

/-- `re.compile(pattern).sub(repl, txt)`. -/
def subPass (m : List Char → Option (Nat × γ)) (repl : γ → Option (List Char))
    (l : List Char) : Option (List Char) :=
  subPassFuel m repl l.length l

/-- `DateNormalizer.replace_dates`: the four substitution passes in order. -/
def replace_dates (text : List Char) : Option (List Char) :=
  (subPass eraMatch eraRepl text).bind fun t1 =>
  (subPass seirekiMatch seirekiRepl t1).bind fun t2 =>
  (subPass abbrMatch abbrRepl t2).bind fun t3 =>
  subPass delimMatch delimRepl t3

/-- `FW_MAP` translation: fullwidth digit to ASCII digit. -/
def fwFold (c : Char) : Char :=
  if c == '０' then '0'
  else if c == '１' then '1'
  else if c == '２' then '2'
  else if c == '３' then '3'
  else if c == '４' then '4'
  else if c == '５' then '5'
  else if c == '６' then '6'
  else if c == '７' then '7'
  else if c == '８' then '8'
  else if c == '９' then '9'
  else c

/-- `DateNormalizer.normalize`: fullwidth folding, then the date passes. -/
def normalize (text : List Char) : Option (List Char) :=
  replace_dates (text.map fwFold)

/-- Defined from the spec's words (claim C7): the digit a character
contributes in digit-string mode — the digit table (kanji digits and literal
decimal digits), all other characters ignored. -/
def specCharDigit (c : Char) : Option Nat :=
  match KANJI_NUM c with
  | some v => some v
  | none => if isPyDecimal c then some (pyDigitVal c) else none

/-- Defined from the spec's words (claim C7): digit-string mode is
"each character mapped through the digit table, concatenated, parsed as
decimal", position-independent and ignoring unmapped characters. -/
def digitConcatSpec (s : List Char) : Nat :=
  decDigits (s.filterMap specCharDigit)

/-- Defined from the spec's words (claim C2): one `re.sub` pass relates input
to output by scanning left to right, copying every character at an unmatched
position verbatim, and substituting the replacement for each matched span,
resuming after it (every matcher of this file consumes at least one
character, so `rest.drop (k - 1)` is the text after the `k` consumed ones). -/
inductive PassTrace {γ : Type} (m : List Char → Option (Nat × γ))
    (repl : γ → Option (List Char)) : List Char → List Char → Prop where
  | nil : PassTrace m repl [] []
  | unmatched {c : Char} {rest out : List Char} :
      m (c :: rest) = none → PassTrace m repl rest out →
      PassTrace m repl (c :: rest) (c :: out)
  | replaced {c : Char} {rest out : List Char} {k : Nat} {g : γ} {r : List Char} :
      m (c :: rest) = some (k, g) → repl g = some r →
      PassTrace m repl (rest.drop (k - 1)) out →
      PassTrace m repl (c :: rest) (r ++ out)

/-- The month group of a date match resolves outside the range accepted by
`calendar.monthrange` (claim C2). -/
def monthOutOfRange (mo : List Char) : Prop :=
  ∃ m, normalize_number mo = some m ∧ (m < 1 ∨ 12 < m)

/-- Some position of `t` carries an era, Gregorian or abbreviated date match
whose day group is the literal 末日 and whose month group resolves outside
1..12 — the only way a replacement function can raise (claim C2). -/
def raisingMatchAt (t : List Char) : Prop :=
  ∃ i,
    (∃ k b y mo d, eraMatch (t.drop i) = some (k, b, y, mo, d) ∧
      d = ['末', '日'] ∧ monthOutOfRange mo) ∨
    (∃ k y mo d, seirekiMatch (t.drop i) = some (k, y, mo, d) ∧
      d = ['末', '日'] ∧ monthOutOfRange mo) ∨
    (∃ k b y mo d, abbrMatch (t.drop i) = some (k, b, y, mo, d) ∧
      d = ['末', '日'] ∧ monthOutOfRange mo)

/-- `t` is the input text of one of the raising-capable passes when
`replace_dates text` runs: the original text (era pass), or the output of the
era pass (Gregorian pass), or the output of the first two passes (abbreviated
pass).  The delimiter pass cannot raise. -/
def stageInput (text t : List Char) : Prop :=
  t = text ∨
  (∃ t1, subPass eraMatch eraRepl text = some t1 ∧
    (t = t1 ∨
      ∃ t2, subPass seirekiMatch seirekiRepl t1 = some t2 ∧ t = t2))

/-- Defined from the spec's words (claim C5): the last calendar day of the
(year, month) pair under the Gregorian rule — February has 29 days iff the
year is divisible by 4 and (not divisible by 100 or divisible by 400). -/
def specLastDay (y : Int) (m : Nat) : Nat :=
  if m = 2 then
    if y % 4 = 0 ∧ (y % 100 ≠ 0 ∨ y % 400 = 0) then 29 else 28
  else if m = 4 ∨ m = 6 ∨ m = 9 ∨ m = 11 then 30 else 31

/-- None of the four date patterns matches at any position of `text`
(claim C2): the whole text is an unmatched region. -/
def NoMatchAnywhere (text : List Char) : Prop :=
  ∀ i, i ≤ text.length →
    eraMatch (text.drop i) = none ∧ seirekiMatch (text.drop i) = none ∧
    abbrMatch (text.drop i) = none ∧ delimMatch (text.drop i) = none

/-- A character of the canonical output: an ASCII digit or a hyphen. -/
def canonChar (c : Char) : Bool :=
  ('0' ≤ c && c ≤ '9') || c == '-'

/-! ### Characters of the formatted output -/

theorem digitChar_canon {d : Nat} (hd : d < 10) : canonChar (Nat.digitChar d) = true := by
  have h : ∀ d : Nat, d < 10 → canonChar (Nat.digitChar d) = true := by decide
  exact h d hd

theorem toDecAux_canon {fuel n : Nat} {c : Char} (h : c ∈ toDecAux fuel n) :
    canonChar c = true := by
  induction fuel generalizing n with
  | zero => simp [toDecAux] at h
  | succ fuel ih =>
    rw [toDecAux] at h
    by_cases hn : n < 10
    · simp only [if_pos hn, List.mem_singleton] at h
      exact h ▸ digitChar_canon hn
    · simp only [if_neg hn, List.mem_append, List.mem_singleton] at h
      rcases h with h | h
      · exact ih h
      · exact h ▸ digitChar_canon (Nat.mod_lt _ (by omega))

theorem natPad_canon {w n : Nat} {c : Char} (h : c ∈ natPad w n) : canonChar c = true := by
  simp only [natPad, List.mem_append, List.mem_replicate] at h
  rcases h with h | h
  · rw [h.2]; decide
  · exact toDecAux_canon h

theorem intPad_canon {w : Nat} {y : Int} {c : Char} (h : c ∈ intPad w y) :
    canonChar c = true := by
  unfold intPad at h
  split at h
  · rcases List.mem_cons.mp h with h | h
    · rw [h]; decide
    · exact natPad_canon h
  · exact natPad_canon h

theorem fmtDate_canon {y : Int} {m d : Nat} {c : Char} (h : c ∈ fmtDate y m d) :
    canonChar c = true := by
  rw [fmtDate] at h
  rcases List.mem_append.mp h with h | h
  · rcases List.mem_append.mp h with h | h
    · exact intPad_canon h
    · rcases List.mem_cons.mp h with h | h
      · rw [h]; decide
      · exact natPad_canon h
  · rcases List.mem_cons.mp h with h | h
    · rw [h]; decide
    · exact natPad_canon h

/-! ### takeWhile / dropWhile over an explicit decomposition -/

theorem takeWhile_append_cons {α : Type} {p : α → Bool} {a t : List α} {b : α}
    (ha : ∀ x ∈ a, p x = true) (hb : p b = false) :
    (a ++ b :: t).takeWhile p = a := by
  induction a with
  | nil => simp [List.takeWhile_cons, hb]
  | cons x xs ih =>
    have hx := ha x (by simp)
    simp only [List.cons_append, List.takeWhile_cons, hx, if_true]
    rw [ih fun y hy => ha y (by simp [hy])]

theorem dropWhile_append_cons {α : Type} {p : α → Bool} {a t : List α} {b : α}
    (ha : ∀ x ∈ a, p x = true) (hb : p b = false) :
    (a ++ b :: t).dropWhile p = b :: t := by
  induction a with
  | nil => simp [List.dropWhile_cons, hb]
  | cons x xs ih =>
    have hx := ha x (by simp)
    simp only [List.cons_append, List.dropWhile_cons, hx, if_true]
    exact ih fun y hy => ha y (by simp [hy])

theorem takeWhile_all {α : Type} {p : α → Bool} {a : List α}
    (ha : ∀ x ∈ a, p x = true) : a.takeWhile p = a := by
  induction a with
  | nil => rfl
  | cons x xs ih =>
    simp only [List.takeWhile_cons, ha x (by simp), if_true]
    rw [ih fun y hy => ha y (by simp [hy])]

/-! ### boundedRun and dayGroup -/

theorem boundedRun_sub {cls : Char → Bool} {ok : Nat → Bool} {sep : Char → Bool}
    {l run r : List Char} (h : boundedRun cls ok sep l = some (run, r)) :
    List.Sublist run l ∧ List.Sublist r l := by
  unfold boundedRun at h
  split at h
  · split at h
    · rename_i c r0 heq
      split at h
      · rw [Option.some.injEq, Prod.mk.injEq] at h
        refine ⟨h.1 ▸ List.takeWhile_sublist cls, h.2 ▸ ?_⟩
        exact (List.sublist_cons_self c r0).trans
          (heq ▸ @List.dropWhile_sublist _ l cls)
      · exact absurd h (by simp)
    · exact absurd h (by simp)
  · exact absurd h (by simp)

theorem boundedRun_none_of_sep {cls : Char → Bool} {ok : Nat → Bool}
    {sep : Char → Bool} {l : List Char} (h : ∀ c ∈ l, sep c = false) :
    boundedRun cls ok sep l = none := by
  unfold boundedRun
  split
  · split
    · rename_i c r0 heq
      have hc : c ∈ l := by
        have hm : c ∈ l.dropWhile cls := by rw [heq]; exact List.mem_cons_self c r0
        exact (List.dropWhile_sublist cls).subset hm
      rw [h c hc]
      simp
    · rfl
  · rfl

theorem dayGroup_matsu {cls : Char → Bool} {r d : List Char} {n : Nat}
    (h : dayGroup cls r = some (d, n)) (hd : d = ['末', '日']) : '末' ∈ r := by
  unfold dayGroup at h
  split at h
  · exact List.mem_cons_self _ _
  · split at h
    · split at h
      · exact absurd h (by simp)
      · rw [Option.some.injEq, Prod.mk.injEq] at h
        have hrun : r.takeWhile cls ++ ['日'] = ['末', '日'] := h.1.trans hd
        have hmem : '末' ∈ r.takeWhile cls := by
          rcases htk : r.takeWhile cls with _ | ⟨x, _ | ⟨y, zs⟩⟩ <;>
            rw [htk] at hrun <;> simp_all
        exact (List.takeWhile_sublist cls).subset hmem
    · exact absurd h (by simp)

/-! ### Generic facts about one substitution pass -/

theorem subPassFuel_no_match {γ : Type} {m : List Char → Option (Nat × γ)}
    {repl : γ → Option (List Char)} :
    ∀ {fuel : Nat} {l : List Char}, l.length ≤ fuel →
      (∀ i, m (l.drop i) = none) → subPassFuel m repl fuel l = some l := by
  intro fuel
  induction fuel with
  | zero =>
    intro l hl _
    rw [List.eq_nil_of_length_eq_zero (Nat.le_zero.mp hl)]
    rfl
  | succ fuel ih =>
    intro l hl hm
    cases l with
    | nil => rfl
    | cons c rest =>
      have h0 := hm 0
      rw [List.drop_zero] at h0
      have hrest : subPassFuel m repl fuel rest = some rest := by
        refine ih (by simp at hl; omega) ?_
        intro i
        have hsh := hm (i + 1)
        rwa [List.drop_succ_cons] at hsh
      simp [subPassFuel, h0, hrest]

theorem subPassFuel_isSome {γ : Type} {m : List Char → Option (Nat × γ)}
    {repl : γ → Option (List Char)} :
    ∀ {fuel : Nat} {l : List Char},
      (∀ i k g, m (l.drop i) = some (k, g) → (repl g).isSome = true) →
      (subPassFuel m repl fuel l).isSome = true := by
  intro fuel
  induction fuel with
  | zero => intro l _; rfl
  | succ fuel ih =>
    intro l hrepl
    cases l with
    | nil => rfl
    | cons c rest =>
      cases hm : m (c :: rest) with
      | none =>
        have htail := @ih rest (fun i k g hg => hrepl (i + 1) k g (by
          rwa [List.drop_succ_cons]))
        simp only [subPassFuel, hm]
        simpa using htail
      | some kg =>
        obtain ⟨k, g⟩ := kg
        have hr : (repl g).isSome = true :=
          hrepl 0 k g (by rwa [List.drop_zero])
        obtain ⟨r, hr'⟩ := Option.isSome_iff_exists.mp hr
        have htail := @ih (rest.drop (k - 1)) (fun i k' g' hg' => by
          refine hrepl (k - 1 + i + 1) k' g' ?_
          rwa [List.drop_succ_cons, ← List.drop_drop])
        obtain ⟨t, ht⟩ := Option.isSome_iff_exists.mp htail
        simp [subPassFuel, hm, hr', ht]

theorem subPassFuel_mem {γ : Type} {m : List Char → Option (Nat × γ)}
    {repl : γ → Option (List Char)} {P : Char → Prop}
    (hrepl : ∀ g r, repl g = some r → ∀ c ∈ r, P c) :
    ∀ {fuel : Nat} {l out : List Char}, subPassFuel m repl fuel l = some out →
      ∀ c ∈ out, c ∈ l ∨ P c := by
  intro fuel
  induction fuel with
  | zero =>
    intro l out h c hc
    rw [show out = [] from by simpa [subPassFuel] using h.symm] at hc
    simp at hc
  | succ fuel ih =>
    intro l out h c hc
    cases l with
    | nil =>
      rw [show out = [] from by simpa [subPassFuel] using h.symm] at hc
      simp at hc
    | cons a rest =>
      cases hm : m (a :: rest) with
      | none =>
        rw [subPassFuel, hm] at h
        simp only [Option.map_eq_some'] at h
        obtain ⟨o0, ho0, rfl⟩ := h
        rcases List.mem_cons.mp hc with rfl | hc2
        · exact Or.inl (List.mem_cons_self _ _)
        · rcases ih ho0 c hc2 with h1 | h1
          · exact Or.inl (List.mem_cons_of_mem _ h1)
          · exact Or.inr h1
      | some kg =>
        obtain ⟨k, g⟩ := kg
        cases hrg : repl g with
        | none => rw [subPassFuel, hm] at h; simp [hrg] at h
        | some r =>
          cases ht : subPassFuel m repl fuel (rest.drop (k - 1)) with
          | none => rw [subPassFuel, hm] at h; simp [hrg, ht] at h
          | some t =>
            rw [subPassFuel, hm] at h
            simp [hrg, ht] at h
            subst h
            rcases List.mem_append.mp hc with h1 | h1
            · exact Or.inr (hrepl g r hrg c h1)
            · rcases ih ht c h1 with h2 | h2
              · exact Or.inl
                  (List.mem_cons_of_mem _ ((List.drop_sublist _ _).subset h2))
              · exact Or.inr h2

/-! ### Digit classes: the regex classes contain no isdigit-but-nondecimal
character, so `normalize_number` cannot raise on a captured group -/

theorem decimal_isdigit {c : Char} (h : isPyDecimal c = true) : str_isdigit c = true := by
  simp [str_isdigit, h]

theorem KANJI_NUM_lt_ten {c : Char} {v : Nat} (h : KANJI_NUM c = some v) : v < 10 := by
  rw [KANJI_NUM] at h
  by_cases h0 : (c == '零') = true
  · rw [if_pos h0] at h
    cases h
    omega
  rw [if_neg h0] at h
  by_cases h1 : (c == '〇') = true
  · rw [if_pos h1] at h
    cases h
    omega
  rw [if_neg h1] at h
  by_cases h2 : (c == '一') = true
  · rw [if_pos h2] at h
    cases h
    omega
  rw [if_neg h2] at h
  by_cases h3 : (c == '二') = true
  · rw [if_pos h3] at h
    cases h
    omega
  rw [if_neg h3] at h
  by_cases h4 : (c == '三') = true
  · rw [if_pos h4] at h
    cases h
    omega
  rw [if_neg h4] at h
  by_cases h5 : (c == '四') = true
  · rw [if_pos h5] at h
    cases h
    omega
  rw [if_neg h5] at h
  by_cases h6 : (c == '五') = true
  · rw [if_pos h6] at h
    cases h
    omega
  rw [if_neg h6] at h
  by_cases h7 : (c == '六') = true
  · rw [if_pos h7] at h
    cases h
    omega
  rw [if_neg h7] at h
  by_cases h8 : (c == '七') = true
  · rw [if_pos h8] at h
    cases h
    omega
  rw [if_neg h8] at h
  by_cases h9 : (c == '八') = true
  · rw [if_pos h9] at h
    cases h
    omega
  rw [if_neg h9] at h
  by_cases h10 : (c == '九') = true
  · rw [if_pos h10] at h
    cases h
    omega
  rw [if_neg h10] at h
  cases h

theorem digitChar_decimal {v : Nat} (h : v < 10) : isPyDecimal (Nat.digitChar v) = true := by
  have hh : ∀ v : Nat, v < 10 → isPyDecimal (Nat.digitChar v) = true := by decide
  exact hh v h

theorem pyDigitVal_digitChar {v : Nat} (h : v < 10) : pyDigitVal (Nat.digitChar v) = v := by
  have hh : ∀ v : Nat, v < 10 → pyDigitVal (Nat.digitChar v) = v := by decide
  exact hh v h

theorem isK_no_exotic {c : Char} (h : isK c = true) (hd : str_isdigit c = true) :
    isPyDecimal c = true := by
  simp only [isK, Bool.or_eq_true, beq_iff_eq] at h
  repeat' rcases h with h | h
  all_goals first
    | assumption
    | exact absurd hd (by decide)

theorem isY_no_exotic {c : Char} (h : isY c = true) (hd : str_isdigit c = true) :
    isPyDecimal c = true := by
  simp only [isY, Bool.or_eq_true, beq_iff_eq] at h
  repeat' rcases h with h | h
  all_goals first
    | assumption
    | exact absurd hd (by decide)

theorem isAbbrNum_no_exotic {c : Char} (h : isAbbrNum c = true)
    (hd : str_isdigit c = true) : isPyDecimal c = true := by
  simp only [isAbbrNum, Bool.or_eq_true, beq_iff_eq] at h
  rcases h with h | h
  · subst h; exact absurd hd (by decide)
  · exact h

theorem collectDigits_decimal {s : List Char}
    (h : ∀ c ∈ s, str_isdigit c = true → isPyDecimal c = true) :
    ∀ c ∈ collectDigits s, isPyDecimal c = true := by
  intro c hc
  rw [collectDigits] at hc
  obtain ⟨a, ha, hfa⟩ := List.mem_filterMap.mp hc
  cases hk : KANJI_NUM a with
  | some v =>
    rw [hk] at hfa
    rw [Option.some.injEq] at hfa
    rw [← hfa]
    exact digitChar_decimal (KANJI_NUM_lt_ten hk)
  | none =>
    rw [hk] at hfa
    simp only [] at hfa
    split at hfa
    · rename_i hd
      rw [Option.some.injEq] at hfa
      rw [← hfa]
      exact h a ha hd
    · exact absurd hfa (by simp)

theorem normalize_number_isSome {s : List Char}
    (h : ∀ c ∈ s, str_isdigit c = true → isPyDecimal c = true) :
    (normalize_number s).isSome = true := by
  rw [normalize_number]
  split
  · rfl
  split
  · rfl
  rw [kanji_to_int]
  split
  · rfl
  split
  · rfl
  split
  · rfl
  rw [pyInt, if_pos (List.all_eq_true.mpr (collectDigits_decimal h))]
  rfl

theorem monthrange_none_bound {y : Int} {m : Nat} (h : monthrange y m = none) :
    m < 1 ∨ 12 < m := by
  rw [monthrange] at h
  split at h
  · exact absurd h (by simp)
  · rename_i hc
    omega

theorem boundedRun_run_class {cls : Char → Bool} {ok : Nat → Bool} {sep : Char → Bool}
    {l run r : List Char} (h : boundedRun cls ok sep l = some (run, r)) :
    ∀ c ∈ run, cls c = true := by
  unfold boundedRun at h
  split at h
  · split at h
    · split at h
      · rw [Option.some.injEq, Prod.mk.injEq] at h
        intro c hc
        rw [← h.1] at hc
        exact List.mem_takeWhile_imp hc
      · exact absurd h (by simp)
    · exact absurd h (by simp)
  · exact absurd h (by simp)

theorem dayGroup_inv {cls : Char → Bool} {r d : List Char} {n : Nat}
    (h : dayGroup cls r = some (d, n)) :
    d = ['末', '日'] ∨ ∃ run, d = run ++ ['日'] ∧ ∀ c ∈ run, cls c = true := by
  unfold dayGroup at h
  split at h
  · rw [Option.some.injEq, Prod.mk.injEq] at h
    exact Or.inl h.1.symm
  · split at h
    · split at h
      · exact absurd h (by simp)
      · rw [Option.some.injEq, Prod.mk.injEq] at h
        exact Or.inr ⟨r.takeWhile cls, h.1.symm,
          fun c hc => List.mem_takeWhile_imp hc⟩
    · exact absurd h (by simp)

theorem abbrDay_inv {r d : List Char} {n : Nat} (h : abbrDay r = some (d, n)) :
    d = ['末', '日'] ∨ ∀ c ∈ d, isPyDecimal c = true := by
  unfold abbrDay at h
  split at h
  · rw [Option.some.injEq, Prod.mk.injEq] at h
    exact Or.inl h.1.symm
  · split at h
    · exact absurd h (by simp)
    · rw [Option.some.injEq, Prod.mk.injEq] at h
      refine Or.inr fun c hc => ?_
      rw [← h.1] at hc
      exact List.mem_takeWhile_imp (List.mem_of_mem_take hc)

/-! ### The only raising replacement: a 末日 day with a month outside 1..12 -/

theorem makeRepl_chars {ey mo ds : List Char} {b : Option Nat} {r : List Char}
    (h : makeRepl ey mo ds b = some r) : ∀ c ∈ r, canonChar c = true := by
  intro c hc
  rw [makeRepl, Option.bind_eq_some] at h
  obtain ⟨y0, hy0, h⟩ := h
  rw [Option.bind_eq_some] at h
  obtain ⟨m, hm, h⟩ := h
  split at h
  · rw [Option.map_eq_some'] at h
    obtain ⟨d, _, rfl⟩ := h
    exact fmtDate_canon hc
  · rw [Option.map_eq_some'] at h
    obtain ⟨d, _, rfl⟩ := h
    exact fmtDate_canon hc

theorem makeRepl_none_cause {ey mo ds : List Char} {b : Option Nat}
    (hey : (normalize_number ey).isSome = true)
    (hmo : (normalize_number mo).isSome = true)
    (hds : ds = ['末', '日'] ∨ (normalize_number ds.dropLast).isSome = true)
    (hn : makeRepl ey mo ds b = none) :
    ds = ['末', '日'] ∧ monthOutOfRange mo := by
  obtain ⟨y0, hy0⟩ := Option.isSome_iff_exists.mp hey
  obtain ⟨m, hm⟩ := Option.isSome_iff_exists.mp hmo
  rw [makeRepl, hy0, Option.some_bind, hm, Option.some_bind] at hn
  split at hn
  · rename_i hdd
    exact ⟨hdd, m, hm, monthrange_none_bound (Option.map_eq_none'.mp hn)⟩
  · rename_i hdd
    rcases hds with hds | hds
    · exact absurd hds hdd
    · obtain ⟨d, hd⟩ := Option.isSome_iff_exists.mp hds
      rw [hd] at hn
      exact absurd hn (by simp)

theorem eraMatch_none_cause {l : List Char} {k b : Nat} {y mo d : List Char}
    (h : eraMatch l = some (k, b, y, mo, d)) (hn : eraRepl (b, y, mo, d) = none) :
    d = ['末', '日'] ∧ monthOutOfRange mo := by
  rcases l with _ | ⟨a1, _ | ⟨a2, rest⟩⟩
  · simp [eraMatch] at h
  · simp [eraMatch] at h
  · simp only [eraMatch, Option.bind_eq_some, Option.map_eq_some'] at h
    obtain ⟨base, hbase, ⟨yrun, r2⟩, hy, ⟨mrun, r4⟩, hmn, ⟨dd, dlen⟩, hd, hg⟩ := h
    cases hg
    have hyS : (normalize_number yrun).isSome = true :=
      normalize_number_isSome fun c hc => isK_no_exotic (boundedRun_run_class hy c hc)
    have hmS : (normalize_number mrun).isSome = true :=
      normalize_number_isSome fun c hc => isK_no_exotic (boundedRun_run_class hmn c hc)
    have hdS : dd = ['末', '日'] ∨ (normalize_number dd.dropLast).isSome = true := by
      rcases dayGroup_inv hd with h1 | ⟨run, hrun, hcls⟩
      · exact Or.inl h1
      · right
        rw [hrun, List.dropLast_concat]
        exact normalize_number_isSome fun c hc => isK_no_exotic (hcls c hc)
    exact makeRepl_none_cause hyS hmS hdS hn

theorem seirekiMatch_none_cause {l : List Char} {k : Nat} {y mo d : List Char}
    (h : seirekiMatch l = some (k, y, mo, d)) (hn : seirekiRepl (y, mo, d) = none) :
    d = ['末', '日'] ∧ monthOutOfRange mo := by
  simp only [seirekiMatch, Option.bind_eq_some, Option.map_eq_some'] at h
  obtain ⟨⟨yrun, r2⟩, hy, ⟨mrun, r4⟩, hmn, ⟨dd, dlen⟩, hd, hg⟩ := h
  cases hg
  have hyS : (normalize_number yrun).isSome = true :=
    normalize_number_isSome fun c hc => isY_no_exotic (boundedRun_run_class hy c hc)
  have hmS : (normalize_number mrun).isSome = true :=
    normalize_number_isSome fun c hc => isK_no_exotic (boundedRun_run_class hmn c hc)
  have hdS : dd = ['末', '日'] ∨ (normalize_number dd.dropLast).isSome = true := by
    rcases dayGroup_inv hd with h1 | ⟨run, hrun, hcls⟩
    · exact Or.inl h1
    · right
      rw [hrun, List.dropLast_concat]
      exact normalize_number_isSome fun c hc => isK_no_exotic (hcls c hc)
  exact makeRepl_none_cause hyS hmS hdS hn

theorem abbrMatch_none_cause {l : List Char} {k b : Nat} {y mo d : List Char}
    (h : abbrMatch l = some (k, b, y, mo, d)) (hn : abbrRepl (b, y, mo, d) = none) :
    d = ['末', '日'] ∧ monthOutOfRange mo := by
  rcases l with _ | ⟨a, rest⟩
  · simp [abbrMatch] at h
  · simp only [abbrMatch, Option.bind_eq_some, Option.map_eq_some'] at h
    obtain ⟨base, hbase, ⟨yrun, r2⟩, hy, ⟨mrun, r4⟩, hmn, ⟨dd, dlen⟩, hd, hg⟩ := h
    cases hg
    have hyS : (normalize_number yrun).isSome = true :=
      normalize_number_isSome fun c hc =>
        isAbbrNum_no_exotic (boundedRun_run_class hy c hc)
    have hmS : (normalize_number mrun).isSome = true :=
      normalize_number_isSome fun c hc _ => boundedRun_run_class hmn c hc
    have hdS : dd = ['末', '日'] ∨ (normalize_number dd.dropLast).isSome = true := by
      rcases abbrDay_inv hd with h1 | hdec
      · exact Or.inl h1
      · right
        refine normalize_number_isSome fun c hc _ => ?_
        exact hdec c ((List.dropLast_sublist dd).subset hc)
    exact makeRepl_none_cause hyS hmS hdS hn

/-! ### Matchers on empty and canonical text -/

theorem eraMatch_nil : eraMatch [] = none := rfl

theorem seirekiMatch_nil : seirekiMatch [] = none := rfl

theorem abbrMatch_nil : abbrMatch [] = none := rfl

theorem delimMatch_nil : delimMatch [] = none := rfl

theorem canon_beq_false {c x : Char} (hc : canonChar c = true)
    (hx : canonChar x = false) : (c == x) = false := by
  cases h : c == x
  · rfl
  · have hcx : c = x := beq_iff_eq.mp h
    rw [hcx, hx] at hc
    exact Bool.noConfusion hc

theorem eraMatch_none_canon {l : List Char} (h : ∀ c ∈ l, canonChar c = true) :
    eraMatch l = none := by
  rcases l with _ | ⟨a, _ | ⟨b, rest⟩⟩
  · rfl
  · rfl
  · have ha := h a (List.mem_cons_self _ _)
    have h1 : (a == '明') = false := canon_beq_false ha (by decide)
    have h2 : (a == '大') = false := canon_beq_false ha (by decide)
    have h3 : (a == '昭') = false := canon_beq_false ha (by decide)
    have h4 : (a == '平') = false := canon_beq_false ha (by decide)
    have h5 : (a == '令') = false := canon_beq_false ha (by decide)
    simp [eraMatch, eraBase, h1, h2, h3, h4, h5]

theorem abbrMatch_none_canon {l : List Char} (h : ∀ c ∈ l, canonChar c = true) :
    abbrMatch l = none := by
  rcases l with _ | ⟨a, rest⟩
  · rfl
  · have ha := h a (List.mem_cons_self _ _)
    have h1 : (a == 'R') = false := canon_beq_false ha (by decide)
    have h2 : (a == 'H') = false := canon_beq_false ha (by decide)
    have h3 : (a == 'S') = false := canon_beq_false ha (by decide)
    have h4 : (a == 'T') = false := canon_beq_false ha (by decide)
    have h5 : (a == 'M') = false := canon_beq_false ha (by decide)
    simp [abbrMatch, abbrEraBase, h1, h2, h3, h4, h5]

theorem seirekiMatch_none_canon {l : List Char} (h : ∀ c ∈ l, canonChar c = true) :
    seirekiMatch l = none := by
  have hb : boundedRun isY (fun n => decide (2 ≤ n) && decide (n ≤ 4))
      (· == '年') l = none :=
    boundedRun_none_of_sep fun c hc => canon_beq_false (h c hc) (by decide)
  simp [seirekiMatch, hb]

theorem delimMatch_none_canon {l : List Char} (h : ∀ c ∈ l, canonChar c = true) :
    delimMatch l = none := by
  have hsep : ∀ c ∈ l, sepDot c = false := fun c hc => by
    have h1 : (c == '.') = false := canon_beq_false (h c hc) (by decide)
    have h2 : (c == '/') = false := canon_beq_false (h c hc) (by decide)
    simp [sepDot, h1, h2]
  have hb : boundedRun isPyDecimal (fun n => n == 4) sepDot l = none :=
    boundedRun_none_of_sep hsep
  simp [delimMatch, hb]

/-! ### replace_dates: traces of each pass, and the only raising path -/

theorem subPassFuel_trace {γ : Type} {m : List Char → Option (Nat × γ)}
    {repl : γ → Option (List Char)} :
    ∀ {fuel : Nat} {l out : List Char}, l.length ≤ fuel →
      subPassFuel m repl fuel l = some out → PassTrace m repl l out := by
  intro fuel
  induction fuel with
  | zero =>
    intro l out hl h
    rw [List.eq_nil_of_length_eq_zero (Nat.le_zero.mp hl)] at h ⊢
    rw [subPassFuel, Option.some.injEq] at h
    rw [← h]
    exact PassTrace.nil
  | succ fuel ih =>
    intro l out hl h
    cases l with
    | nil =>
      rw [subPassFuel, Option.some.injEq] at h
      rw [← h]
      exact PassTrace.nil
    | cons c rest =>
      have hl' : rest.length ≤ fuel := by simp at hl; omega
      cases hm : m (c :: rest) with
      | none =>
        rw [subPassFuel, hm] at h
        rw [Option.map_eq_some'] at h
        obtain ⟨o0, ho0, rfl⟩ := h
        exact PassTrace.unmatched hm (ih hl' ho0)
      | some kg =>
        obtain ⟨k, g⟩ := kg
        rw [subPassFuel, hm] at h
        simp only [] at h
        rw [Option.bind_eq_some] at h
        obtain ⟨r, hr, h⟩ := h
        rw [Option.bind_eq_some] at h
        obtain ⟨tail, htail, h⟩ := h
        rw [Option.some.injEq] at h
        rw [← h]
        refine PassTrace.replaced hm hr (ih ?_ htail)
        rw [List.length_drop]
        omega

theorem subPassFuel_none_cause {γ : Type} {m : List Char → Option (Nat × γ)}
    {repl : γ → Option (List Char)} :
    ∀ {fuel : Nat} {l : List Char}, subPassFuel m repl fuel l = none →
      ∃ i k g, m (l.drop i) = some (k, g) ∧ repl g = none := by
  intro fuel
  induction fuel with
  | zero => intro l h; exact absurd h (by simp [subPassFuel])
  | succ fuel ih =>
    intro l h
    cases l with
    | nil => exact absurd h (by simp [subPassFuel])
    | cons c rest =>
      cases hm : m (c :: rest) with
      | none =>
        rw [subPassFuel, hm] at h
        rw [Option.map_eq_none'] at h
        obtain ⟨i, k, g, hg, hr⟩ := ih h
        exact ⟨i + 1, k, g, by rwa [List.drop_succ_cons], hr⟩
      | some kg =>
        obtain ⟨k, g⟩ := kg
        rw [subPassFuel, hm] at h
        simp only [] at h
        cases hrg : repl g with
        | none => exact ⟨0, k, g, by rwa [List.drop_zero], hrg⟩
        | some r =>
          rw [hrg, Option.some_bind] at h
          cases htail : subPassFuel m repl fuel (rest.drop (k - 1)) with
          | none =>
            obtain ⟨i, k2, g2, hg2, hr2⟩ := ih htail
            refine ⟨k - 1 + i + 1, k2, g2, ?_, hr2⟩
            rwa [List.drop_succ_cons, ← List.drop_drop]
          | some t =>
            rw [htail, Option.some_bind] at h
            exact absurd h (by simp)

/-! ### replace_dates on unmatched and canonical text -/

theorem replace_dates_no_match {text : List Char} (h : NoMatchAnywhere text) :
    replace_dates text = some text := by
  have hera : ∀ i, eraMatch (text.drop i) = none := fun i => by
    by_cases hi : i ≤ text.length
    · exact (h i hi).1
    · rw [List.drop_eq_nil_of_le (by omega)]; rfl
  have hsei : ∀ i, seirekiMatch (text.drop i) = none := fun i => by
    by_cases hi : i ≤ text.length
    · exact (h i hi).2.1
    · rw [List.drop_eq_nil_of_le (by omega)]; rfl
  have habbr : ∀ i, abbrMatch (text.drop i) = none := fun i => by
    by_cases hi : i ≤ text.length
    · exact (h i hi).2.2.1
    · rw [List.drop_eq_nil_of_le (by omega)]; rfl
  have hdelim : ∀ i, delimMatch (text.drop i) = none := fun i => by
    by_cases hi : i ≤ text.length
    · exact (h i hi).2.2.2
    · rw [List.drop_eq_nil_of_le (by omega)]; rfl
  have h1 : subPass eraMatch eraRepl text = some text :=
    subPassFuel_no_match (Nat.le_refl _) hera
  have h2 : subPass seirekiMatch seirekiRepl text = some text :=
    subPassFuel_no_match (Nat.le_refl _) hsei
  have h3 : subPass abbrMatch abbrRepl text = some text :=
    subPassFuel_no_match (Nat.le_refl _) habbr
  have h4 : subPass delimMatch delimRepl text = some text :=
    subPassFuel_no_match (Nat.le_refl _) hdelim
  rw [replace_dates]
  simp only [h1, Option.some_bind, h2, h3, h4]

theorem replace_dates_canon {l : List Char} (h : ∀ c ∈ l, canonChar c = true) :
    replace_dates l = some l := by
  refine replace_dates_no_match fun i _ => ?_
  have hdrop : ∀ c ∈ l.drop i, canonChar c = true :=
    fun c hc => h c ((List.drop_sublist i l).subset hc)
  exact ⟨eraMatch_none_canon hdrop, seirekiMatch_none_canon hdrop,
    abbrMatch_none_canon hdrop, delimMatch_none_canon hdrop⟩

theorem fwFold_canon {c : Char} (h : canonChar c = true) : fwFold c = c := by
  have h0 : (c == '０') = false := canon_beq_false h (by decide)
  have h1 : (c == '１') = false := canon_beq_false h (by decide)
  have h2 : (c == '２') = false := canon_beq_false h (by decide)
  have h3 : (c == '３') = false := canon_beq_false h (by decide)
  have h4 : (c == '４') = false := canon_beq_false h (by decide)
  have h5 : (c == '５') = false := canon_beq_false h (by decide)
  have h6 : (c == '６') = false := canon_beq_false h (by decide)
  have h7 : (c == '７') = false := canon_beq_false h (by decide)
  have h8 : (c == '８') = false := canon_beq_false h (by decide)
  have h9 : (c == '９') = false := canon_beq_false h (by decide)
  simp [fwFold, h0, h1, h2, h3, h4, h5, h6, h7, h8, h9]

/-! ### Claim theorems -/

/-- C1 (code bug): the spec requires `rewrite("R5.3.2") = "2023-03-02"`, but the
abbreviated-era pattern captures its day group without a trailing `日` while
`_make_repl` strips the final character of every day group, so the code emits
`"2023-03-00"` (the day loses its last digit; a two-digit day `12` becomes `1`). -/
theorem C1_abbr_day_digit_dropped :
    normalize "R5.3.2".toList = some "2023-03-00".toList ∧
    normalize "R5.3.12日".toList = some "2023-03-01".toList := by
  constructor
  · decide
  · decide

/-- C2 counterexample: `rewrite` is not total.  On `"二〇二四年十三月末日"` the
Gregorian-kanji pass resolves month 十三 = 13 with the 末日 day token, and
`calendar.monthrange(2024, 13)` raises `IllegalMonthError` (modelled by `none`),
so both `replace_dates` and `normalize` raise instead of returning a string. -/
theorem C2_totality_counterexample :
    replace_dates "二〇二四年十三月末日".toList = none ∧
    normalize "二〇二四年十三月末日".toList = none := by
  constructor
  · decide
  · decide

/-- C2 (amended): each of the four passes relates its input to its output by
a left-to-right scan trace — every character at an unmatched position passes
through unchanged and each matched span is replaced — and `replace_dates` can
fail to return a string only when the input of one of the first three passes
carries, at some position, a date match whose day group is the literal 末日
and whose month group resolves outside 1..12 (the `calendar.monthrange`
exception); the delimiter pass never raises. -/
theorem C2_total_and_passthrough_amended :
    (∀ text out : List Char, replace_dates text = some out →
      ∃ t1 t2 t3, PassTrace eraMatch eraRepl text t1 ∧
        PassTrace seirekiMatch seirekiRepl t1 t2 ∧
        PassTrace abbrMatch abbrRepl t2 t3 ∧
        PassTrace delimMatch delimRepl t3 out) ∧
    (∀ text : List Char, replace_dates text = none →
      ∃ t, stageInput text t ∧ raisingMatchAt t) := by
  constructor
  · intro text out h
    rw [replace_dates, Option.bind_eq_some] at h
    obtain ⟨t1, h1, h⟩ := h
    rw [Option.bind_eq_some] at h
    obtain ⟨t2, h2, h⟩ := h
    rw [Option.bind_eq_some] at h
    obtain ⟨t3, h3, h4⟩ := h
    exact ⟨t1, t2, t3, subPassFuel_trace (Nat.le_refl _) h1,
      subPassFuel_trace (Nat.le_refl _) h2, subPassFuel_trace (Nat.le_refl _) h3,
      subPassFuel_trace (Nat.le_refl _) h4⟩
  · intro text h
    rw [replace_dates] at h
    cases h1 : subPass eraMatch eraRepl text with
    | none =>
      obtain ⟨i, k, g, hg, hr⟩ := subPassFuel_none_cause h1
      obtain ⟨b, y, mo, d⟩ := g
      obtain ⟨hd, hmo⟩ := eraMatch_none_cause hg hr
      exact ⟨text, Or.inl rfl, i, Or.inl ⟨k, b, y, mo, d, hg, hd, hmo⟩⟩
    | some t1 =>
      rw [h1, Option.some_bind] at h
      cases h2 : subPass seirekiMatch seirekiRepl t1 with
      | none =>
        obtain ⟨i, k, g, hg, hr⟩ := subPassFuel_none_cause h2
        obtain ⟨y, mo, d⟩ := g
        obtain ⟨hd, hmo⟩ := seirekiMatch_none_cause hg hr
        exact ⟨t1, Or.inr ⟨t1, h1, Or.inl rfl⟩, i,
          Or.inr (Or.inl ⟨k, y, mo, d, hg, hd, hmo⟩)⟩
      | some t2 =>
        rw [h2, Option.some_bind] at h
        cases h3 : subPass abbrMatch abbrRepl t2 with
        | none =>
          obtain ⟨i, k, g, hg, hr⟩ := subPassFuel_none_cause h3
          obtain ⟨b, y, mo, d⟩ := g
          obtain ⟨hd, hmo⟩ := abbrMatch_none_cause hg hr
          exact ⟨t2, Or.inr ⟨t1, h1, Or.inr ⟨t2, h2, rfl⟩⟩, i,
            Or.inr (Or.inr ⟨k, b, y, mo, d, hg, hd, hmo⟩)⟩
        | some t3 =>
          rw [h3, Option.some_bind] at h
          have h4 : (subPass delimMatch delimRepl t3).isSome = true :=
            subPassFuel_isSome fun i k g hg => rfl
          rw [h] at h4
          exact absurd h4 (by simp)

theorem C2_total_and_passthrough_amended_witness :
    (∃ t1 t2 t3, PassTrace eraMatch eraRepl "ab".toList t1 ∧
      PassTrace seirekiMatch seirekiRepl t1 t2 ∧
      PassTrace abbrMatch abbrRepl t2 t3 ∧
      PassTrace delimMatch delimRepl t3 "ab".toList) ∧
    (∃ t, stageInput "二〇二四年十三月末日".toList t ∧ raisingMatchAt t) :=
  ⟨C2_total_and_passthrough_amended.1 "ab".toList "ab".toList (by decide),
   C2_total_and_passthrough_amended.2 "二〇二四年十三月末日".toList (by decide)⟩

/-- C8: `rewrite` is idempotent on canonical dates: for every formatted
canonical date string `YYYY-MM-DD` (any resolved year, month and day values),
no pattern of the four passes matches (the canonical string consists of ASCII
digits and hyphens only), so `normalize` maps it to itself and in particular
`normalize (normalize x) = normalize x`. -/
theorem C8_idempotent_on_canonical :
    ∀ (y : Int) (m d : Nat),
      (normalize (fmtDate y m d)).bind normalize = normalize (fmtDate y m d) ∧
      normalize (fmtDate y m d) = some (fmtDate y m d) := by
  intro y m d
  have hcanon : ∀ c ∈ fmtDate y m d, canonChar c = true := fun c hc => fmtDate_canon hc
  have hfw : (fmtDate y m d).map fwFold = fmtDate y m d :=
    (List.map_congr_left fun c hc => fwFold_canon (hcanon c hc)).trans (List.map_id _)
  have hnorm : normalize (fmtDate y m d) = some (fmtDate y m d) := by
    rw [normalize, hfw]
    exact replace_dates_canon hcanon
  exact ⟨by simp [hnorm], hnorm⟩

/-- C3 (code bug): the spec says `toInteger` never raises and resolves every
string of unrecognized characters (other than 元) to 0, but the no-units
branch collects every character satisfying `str.isdigit` — which accepts the
superscript digit ² — and then calls `int` on the joined string, which
rejects ², so `toInteger("²")` raises `ValueError` (modelled by `none`).  The
empty string does resolve to 0. -/
theorem C3_normalize_number_raises :
    kanji_to_int ['²'] = none ∧ normalize_number ['²'] = none ∧
    normalize_number [] = some 0 :=
  ⟨by decide, by decide, rfl⟩

/-- C4: for every era-name date replacement the emitted year equals the era
base year plus the era-relative year minus 1 (whatever the day group
resolves to), the token 元 converts to 1, and in particular
`rewrite("平成元年四月一日") = "1989-04-01"` and
`rewrite("令和五年三月二日") = "2023-03-02"`. -/
theorem C4_era_year_resolution :
    normalize "平成元年四月一日".toList = some "1989-04-01".toList ∧
    normalize "令和五年三月二日".toList = some "2023-03-02".toList ∧
    normalize_number ['元'] = some 1 ∧
    ∀ (ey mo ds : List Char) (b : Nat) (r : List Char),
      makeRepl ey mo ds (some b) = some r →
      ∃ y0 m d, normalize_number ey = some y0 ∧ normalize_number mo = some m ∧
        r = fmtDate ((b : Int) + (y0 : Int) - 1) m d := by
  refine ⟨by decide, by decide, rfl, ?_⟩
  intro ey mo ds b r h
  rw [makeRepl, Option.bind_eq_some] at h
  obtain ⟨y0, hy0, h⟩ := h
  rw [Option.bind_eq_some] at h
  obtain ⟨m, hm, h⟩ := h
  split at h
  · rw [Option.map_eq_some'] at h
    obtain ⟨d, _, rfl⟩ := h
    exact ⟨y0, m, d, hy0, hm, rfl⟩
  · rw [Option.map_eq_some'] at h
    obtain ⟨d, _, rfl⟩ := h
    exact ⟨y0, m, d, hy0, hm, rfl⟩

theorem C4_era_year_resolution_witness :
    ∃ y0 m d, normalize_number ['五'] = some y0 ∧
      normalize_number ['三'] = some m ∧
      "2023-03-02".toList = fmtDate (((2019 : Nat) : Int) + (y0 : Int) - 1) m d :=
  C4_era_year_resolution.2.2.2 ['五'] ['三'] ['二', '日'] 2019 _ (by decide)

/-- C5: when the day token is 末日, the emitted day is the true last calendar
day of the resolved (year, month) pair under the Gregorian leap rule: for
every year and every month in 1..12, `calendar.monthrange` returns exactly
the spec's month length (February has 29 days iff the year is divisible by 4
and not by 100 unless by 400); in particular
`rewrite("二〇二四年二月末日") = "2024-02-29"`. -/
theorem C5_end_of_month_leap :
    normalize "二〇二四年二月末日".toList = some "2024-02-29".toList ∧
    ∀ (y : Int) (m : Nat), 1 ≤ m → m ≤ 12 →
      monthrange y m = some (specLastDay y m) := by
  refine ⟨by decide, ?_⟩
  intro y m h1 h2
  rw [monthrange, if_pos ⟨h1, h2⟩]
  have hiff : isleap y = true ↔ (y % 4 = 0 ∧ (y % 100 ≠ 0 ∨ y % 400 = 0)) := by
    simp [isleap, Bool.and_eq_true, Bool.or_eq_true, beq_iff_eq,
      Bool.not_eq_true', beq_eq_false_iff_ne]
  congr 1
  interval_cases m
  · simp [mdaysVal, specLastDay]
  · by_cases hp : y % 4 = 0 ∧ (y % 100 ≠ 0 ∨ y % 400 = 0)
    · have hb : isleap y = true := hiff.mpr hp
      rw [specLastDay, if_pos rfl, if_pos hp]
      simp [mdaysVal, hb]
    · have hb : isleap y = false :=
        Bool.eq_false_iff.mpr fun h => hp (hiff.mp h)
      rw [specLastDay, if_pos rfl, if_neg hp]
      simp [mdaysVal, hb]
  · simp [mdaysVal, specLastDay]
  · simp [mdaysVal, specLastDay]
  · simp [mdaysVal, specLastDay]
  · simp [mdaysVal, specLastDay]
  · simp [mdaysVal, specLastDay]
  · simp [mdaysVal, specLastDay]
  · simp [mdaysVal, specLastDay]
  · simp [mdaysVal, specLastDay]
  · simp [mdaysVal, specLastDay]
  · simp [mdaysVal, specLastDay]

theorem C5_end_of_month_leap_witness :
    monthrange 2024 2 = some (specLastDay 2024 2) :=
  C5_end_of_month_leap.2 2024 2 (by decide) (by decide)

/-! ### unitsGo decomposition (claim C6) -/

theorem unitsGo_add {l : List Char} :
    ∀ {t cur}, unitsGo l t cur = t + unitsGo l 0 cur := by
  induction l with
  | nil => intro t cur; simp [unitsGo]
  | cons ch rest ih =>
    intro t cur
    cases hch : UNIT_LARGE ch with
    | some v =>
      rw [unitsGo, hch]
      rw [unitsGo, hch]
      simp only []
      rw [ih, @ih (0 + (if parse_small cur = 0 then 1 else parse_small cur) * v) []]
      omega
    | none =>
      rw [unitsGo, hch, unitsGo, hch]
      simp only []
      rw [ih]

theorem unitsGo_append_nolarge {pre : List Char}
    (hp : ∀ ch ∈ pre, UNIT_LARGE ch = none) :
    ∀ {l : List Char} {t : Nat} {cur : List Char},
      unitsGo (pre ++ l) t cur = unitsGo l t (cur ++ pre) := by
  induction pre with
  | nil => intro l t cur; simp
  | cons p ps ih =>
    intro l t cur
    have hpn : UNIT_LARGE p = none := hp p (List.mem_cons_self _ _)
    rw [List.cons_append, unitsGo, hpn]
    simp only []
    rw [ih fun ch hch => hp ch (List.mem_cons_of_mem _ hch)]
    rw [List.append_cons cur p ps]

theorem unitsGo_nolarge {l : List Char} (h : ∀ ch ∈ l, UNIT_LARGE ch = none) :
    ∀ {t : Nat} {cur : List Char}, unitsGo l t cur = t + parse_small (cur ++ l) := by
  intro t cur
  have happ := @unitsGo_append_nolarge _ h [] t cur
  rw [List.append_nil] at happ
  rw [happ, unitsGo]

/-- C6: on any string with a large-unit character, `kanji_to_int` works
segment-wise: the prefix before the first large unit is parsed by
`parse_small` (a 0-valued prefix counts as 1), multiplied by the unit value,
and added to the value of the remainder (which is again unit-split if it
still holds a large unit, and otherwise a final small numeral); in particular
`toInteger("一万") = 10000`, `toInteger("三万二千一") = 32001` and
`toInteger("億") = 100000000`. -/
theorem C6_large_unit_split :
    normalize_number "一万".toList = some 10000 ∧
    normalize_number "三万二千一".toList = some 32001 ∧
    normalize_number "億".toList = some 100000000 ∧
    ∀ (pre rest : List Char) (c : Char) (v : Nat),
      (∀ ch ∈ pre, UNIT_LARGE ch = none) → UNIT_LARGE c = some v →
      kanji_to_int (pre ++ c :: rest) =
        (if rest.any (fun ch => (UNIT_LARGE ch).isSome) then kanji_to_int rest
         else some (parse_small rest)).map
          fun rem =>
            (if parse_small pre = 0 then 1 else parse_small pre) * v + rem := by
  refine ⟨by decide, by decide, by decide, ?_⟩
  intro pre rest c v hpre hc
  have hne : pre ++ c :: rest ≠ [] := by simp
  have hany : ((pre ++ c :: rest).any fun ch =>
      (UNIT_SMALL ch).isSome || (UNIT_LARGE ch).isSome) = true := by
    rw [List.any_eq_true]
    exact ⟨c, by simp, by simp [hc]⟩
  rw [kanji_to_int, if_neg hne, hany]
  simp only [if_true]
  rw [unitsGo_append_nolarge hpre]
  simp only [List.nil_append]
  rw [unitsGo, hc]
  simp only []
  rw [unitsGo_add]
  by_cases hrl : (rest.any fun ch => (UNIT_LARGE ch).isSome) = true
  · rw [if_pos hrl]
    have hrne : rest ≠ [] := by
      intro he
      rw [he] at hrl
      simp at hrl
    have hrany : (rest.any fun ch =>
        (UNIT_SMALL ch).isSome || (UNIT_LARGE ch).isSome) = true := by
      rw [List.any_eq_true] at hrl ⊢
      obtain ⟨x, hx, hx2⟩ := hrl
      exact ⟨x, hx, by simp [hx2]⟩
    rw [kanji_to_int, if_neg hrne, hrany]
    simp
  · rw [if_neg hrl]
    have hnone : ∀ ch ∈ rest, UNIT_LARGE ch = none := by
      intro ch hch
      have hf := List.any_eq_false.mp (Bool.eq_false_iff.mpr hrl) ch hch
      exact Option.not_isSome_iff_eq_none.mp (by simp [hf])
    rw [unitsGo_nolarge hnone]
    simp [parse_small]

theorem C6_large_unit_split_witness :
    kanji_to_int "三万二千一".toList =
      (if ("二千一".toList).any (fun ch => (UNIT_LARGE ch).isSome) then
        kanji_to_int "二千一".toList
       else some (parse_small "二千一".toList)).map
        (fun rem =>
          (if parse_small ['三'] = 0 then 1 else parse_small ['三']) * 10000 + rem) :=
  C6_large_unit_split.2.2.2 ['三'] "二千一".toList '万' 10000 (by decide) (by decide)

/-! ### Digit-concatenation mode (claims C7, C10) -/

theorem beq_false_of_pred_ne {p : Char → Bool} {c x : Char} (hc : p c = true)
    (hx : p x = false) : (c == x) = false := by
  cases h : c == x
  · rfl
  · have hcx : c = x := beq_iff_eq.mp h
    rw [hcx, hx] at hc
    exact Bool.noConfusion hc

theorem KANJI_NUM_none_of_pydigit {c : Char} (h : isPyDecimal c = true) :
    KANJI_NUM c = none := by
  have h01 : (c == '零') = false := beq_false_of_pred_ne h (by decide)
  have h02 : (c == '〇') = false := beq_false_of_pred_ne h (by decide)
  have h03 : (c == '一') = false := beq_false_of_pred_ne h (by decide)
  have h04 : (c == '二') = false := beq_false_of_pred_ne h (by decide)
  have h05 : (c == '三') = false := beq_false_of_pred_ne h (by decide)
  have h06 : (c == '四') = false := beq_false_of_pred_ne h (by decide)
  have h07 : (c == '五') = false := beq_false_of_pred_ne h (by decide)
  have h08 : (c == '六') = false := beq_false_of_pred_ne h (by decide)
  have h09 : (c == '七') = false := beq_false_of_pred_ne h (by decide)
  have h10 : (c == '八') = false := beq_false_of_pred_ne h (by decide)
  have h11 : (c == '九') = false := beq_false_of_pred_ne h (by decide)
  simp [KANJI_NUM, h01, h02, h03, h04, h05, h06, h07, h08, h09, h10, h11]

/-- C7 counterexamples: the digit-concatenation claim fails on unit-free
strings in two ways: `toInteger("元") = 1` while digit concatenation gives 0,
and `toInteger("²")` raises `ValueError` (the superscript passes
`str.isdigit` into the digit list but `int` rejects it) while digit
concatenation gives 0. -/
theorem C7_counterexamples :
    ((UNIT_SMALL '元' = none ∧ UNIT_LARGE '元' = none) ∧
      normalize_number ['元'] ≠ some (digitConcatSpec ['元'])) ∧
    ((UNIT_SMALL '²' = none ∧ UNIT_LARGE '²' = none) ∧
      normalize_number ['²'] ≠ some (digitConcatSpec ['²'])) :=
  ⟨⟨⟨by decide, by decide⟩, by decide⟩, ⟨⟨by decide, by decide⟩, by decide⟩⟩

theorem filterMap_specCharDigit_eq_map {s : List Char}
    (h : ∀ c ∈ s, isPyDecimal c = true) :
    s.filterMap specCharDigit = s.map pyDigitVal := by
  induction s with
  | nil => rfl
  | cons a rest ih =>
    have ha := h a (List.mem_cons_self _ _)
    rw [List.filterMap_cons, List.map_cons]
    rw [show specCharDigit a = some (pyDigitVal a) from by
      simp [specCharDigit, KANJI_NUM_none_of_pydigit ha, ha]]
    rw [ih fun c hc => h c (List.mem_cons_of_mem _ hc)]

theorem collect_vs_spec {s : List Char}
    (h : ∀ c ∈ s, str_isdigit c = true → isPyDecimal c = true) :
    (collectDigits s).map pyDigitVal = s.filterMap specCharDigit := by
  induction s with
  | nil => rfl
  | cons a rest ih =>
    have ih2 := ih fun c hc hd => h c (List.mem_cons_of_mem _ hc) hd
    rw [collectDigits] at ih2 ⊢
    rw [List.filterMap_cons, List.filterMap_cons]
    cases hk : KANJI_NUM a with
    | some v =>
      simp [specCharDigit, hk, pyDigitVal_digitChar (KANJI_NUM_lt_ten hk), ih2]
    | none =>
      cases hd : str_isdigit a with
      | true =>
        have hdec := h a (List.mem_cons_self _ _) hd
        simp [specCharDigit, hk, hd, hdec, ih2]
      | false =>
        have hdec : isPyDecimal a = false := by
          cases hdc : isPyDecimal a with
          | false => rfl
          | true => exact absurd hd (by simp [decimal_isdigit hdc])
        simp [specCharDigit, hk, hd, hdec, ih2]

/-- C7 (amended): for every string without small- or large-unit characters,
other than the special token 元, in which every character accepted by
`str.isdigit` is a true decimal (`int`-parseable) digit, `toInteger` computes
the position-independent digit concatenation (each character mapped through
the digit table, concatenated, parsed as decimal) — never magnitude
arithmetic; in particular `toInteger("二三") = 23` and
`toInteger("二〇二三") = 2023`. -/
theorem C7_digit_concat_amended :
    normalize_number "二三".toList = some 23 ∧
    normalize_number "二〇二三".toList = some 2023 ∧
    ∀ s : List Char, (∀ c ∈ s, UNIT_SMALL c = none ∧ UNIT_LARGE c = none) →
      (∀ c ∈ s, str_isdigit c = true → isPyDecimal c = true) →
      s ≠ ['元'] → normalize_number s = some (digitConcatSpec s) := by
  refine ⟨by decide, by decide, ?_⟩
  intro s hu hdig hne
  rw [normalize_number, if_neg hne]
  by_cases hall : (!s.isEmpty && s.all isPyDecimal) = true
  · rw [if_pos hall]
    have hd : ∀ c ∈ s, isPyDecimal c = true :=
      List.all_eq_true.mp (Bool.and_eq_true_iff.mp hall).2
    rw [digitConcatSpec, filterMap_specCharDigit_eq_map hd]
  · rw [if_neg hall]
    cases s with
    | nil => rfl
    | cons a rest =>
      have hany : ((a :: rest).any fun ch =>
          (UNIT_SMALL ch).isSome || (UNIT_LARGE ch).isSome) = false := by
        rw [List.any_eq_false]
        intro c hc
        simp [(hu c hc).1, (hu c hc).2]
      rw [kanji_to_int, if_neg (by simp), hany]
      simp only [Bool.false_eq_true, if_false]
      by_cases hcd : collectDigits (a :: rest) = []
      · rw [if_pos hcd, digitConcatSpec, ← collect_vs_spec hdig, hcd]
        rfl
      · rw [if_neg hcd, pyInt,
          if_pos (List.all_eq_true.mpr (collectDigits_decimal hdig)),
          digitConcatSpec, ← collect_vs_spec hdig]

theorem C7_digit_concat_amended_witness :
    normalize_number "二〇二三".toList =
      some (digitConcatSpec "二〇二三".toList) :=
  C7_digit_concat_amended.2.2 "二〇二三".toList (by decide) (by decide) (by decide)

/-- C10: in magnitude-arithmetic mode the small-numeral parser recognizes only
kanji digits and small units, silently ignoring ASCII digits and every other
character (`parse_small` of a string equals `parse_small` of its restriction
to recognized characters); hence the ASCII digit in `"5万"` contributes
nothing, the bare-unit default 1 applies, and `kanji_to_int("5万") = 10000`,
not 50000. -/
theorem C10_parse_small_ignores_ascii :
    (∀ s : List Char, parse_small s =
      parse_small (s.filter fun c => (KANJI_NUM c).isSome || (UNIT_SMALL c).isSome)) ∧
    kanji_to_int "5万".toList = some 10000 ∧
    kanji_to_int "5万".toList ≠ some 50000 := by
  refine ⟨?_, by decide, by decide⟩
  intro s
  suffices h : ∀ t n, parseSmallGo s t n =
      parseSmallGo (s.filter fun c => (KANJI_NUM c).isSome || (UNIT_SMALL c).isSome) t n
    from h 0 0
  induction s with
  | nil => intro t n; rfl
  | cons a rest ih =>
    intro t n
    cases hk : KANJI_NUM a with
    | some v =>
      rw [List.filter_cons_of_pos (by simp [hk])]
      rw [parseSmallGo, hk, parseSmallGo, hk]
      exact ih _ _
    | none =>
      cases hsm : UNIT_SMALL a with
      | some u =>
        rw [List.filter_cons_of_pos (by simp [hsm])]
        rw [parseSmallGo, hk, hsm, parseSmallGo, hk, hsm]
        exact ih _ _
      | none =>
        rw [List.filter_cons_of_neg (by simp [hk, hsm])]
        rw [parseSmallGo, hk, hsm]
        exact ih _ _

/-! ### The delimiter pass on an exact match (claim C9) -/

theorem subPassFuel_nil {γ : Type} {m : List Char → Option (Nat × γ)}
    {repl : γ → Option (List Char)} :
    ∀ fuel, subPassFuel m repl fuel [] = some []
  | 0 => rfl
  | _ + 1 => rfl

theorem subPass_single_full {γ : Type} {m : List Char → Option (Nat × γ)}
    {repl : γ → Option (List Char)} {l r : List Char} {g : γ}
    (hl : l ≠ []) (hm : m l = some (l.length, g)) (hr : repl g = some r) :
    subPass m repl l = some r := by
  cases l with
  | nil => exact absurd rfl hl
  | cons c rest =>
    rw [subPass, show (c :: rest).length = rest.length + 1 from rfl]
    rw [subPassFuel]
    rw [show (c :: rest).length = rest.length + 1 from rfl] at hm
    rw [hm]
    simp only []
    rw [hr, Option.some_bind]
    rw [show rest.length + 1 - 1 = rest.length from by omega, List.drop_length]
    rw [subPassFuel_nil]
    simp

theorem sepDot_not_digit {c : Char} (h : sepDot c = true) : isPyDecimal c = false := by
  unfold sepDot at h
  cases hd : c == '.' with
  | true => rw [beq_iff_eq.mp hd]; decide
  | false =>
    rw [hd] at h
    simp only [Bool.false_or] at h
    rw [beq_iff_eq.mp h]
    decide

/-- C9: the delimiter pass rewrites every exact match of
`\d{4}[./]\d{1,2}[./]\d{1,2}` into the zero-padded hyphenated canonical form
without any calendar validation of month or day (the captured digit values are
emitted unchanged); in particular `rewrite("2023/3/2") = "2023-03-02"` and the
out-of-range `"2023/99/99"` becomes `"2023-99-99"`. -/
theorem C9_delimiter_pass_no_validation :
    normalize "2023/3/2".toList = some "2023-03-02".toList ∧
    normalize "2023/99/99".toList = some "2023-99-99".toList ∧
    ∀ (ys ms ds : List Char) (s1 s2 : Char),
      ys.length = 4 → (∀ c ∈ ys, isPyDecimal c = true) →
      (ms.length = 1 ∨ ms.length = 2) → (∀ c ∈ ms, isPyDecimal c = true) →
      (ds.length = 1 ∨ ds.length = 2) → (∀ c ∈ ds, isPyDecimal c = true) →
      sepDot s1 = true → sepDot s2 = true →
      subPass delimMatch delimRepl (ys ++ s1 :: (ms ++ s2 :: ds)) =
        some (fmtDate (decDigits (ys.map pyDigitVal))
          (decDigits (ms.map pyDigitVal)) (decDigits (ds.map pyDigitVal))) := by
  refine ⟨by decide, by decide, ?_⟩
  intro ys ms ds s1 s2 hyl hys hml hms hdl hds hs1 hs2
  have hs1d := sepDot_not_digit hs1
  have hs2d := sepDot_not_digit hs2
  have hdne : ds ≠ [] := by
    intro he
    rw [he] at hdl
    simp at hdl
  have hby : boundedRun isPyDecimal (fun n => n == 4) sepDot
      (ys ++ s1 :: (ms ++ s2 :: ds)) = some (ys, ms ++ s2 :: ds) := by
    unfold boundedRun
    rw [takeWhile_append_cons hys hs1d, dropWhile_append_cons hys hs1d, hyl]
    simp [hs1]
  have hbm : boundedRun isPyDecimal oneTwo sepDot (ms ++ s2 :: ds) =
      some (ms, ds) := by
    unfold boundedRun
    rw [takeWhile_append_cons hms hs2d, dropWhile_append_cons hms hs2d]
    have hok : oneTwo ms.length = true := by
      rcases hml with h | h <;> simp [oneTwo, h]
    rw [hok]
    simp [hs2]
  have htd : ds.takeWhile isPyDecimal = ds := takeWhile_all hds
  have htk : ds.take 2 = ds :=
    List.take_of_length_le (by rcases hdl with h | h <;> omega)
  have hdm : delimMatch (ys ++ s1 :: (ms ++ s2 :: ds)) =
      some ((ys ++ s1 :: (ms ++ s2 :: ds)).length, (ys, ms, ds)) := by
    unfold delimMatch
    rw [hby, Option.some_bind]
    dsimp only
    rw [hbm, Option.some_bind]
    dsimp only
    rw [htd]
    rw [show ds.isEmpty = false from by
      cases ds
      · exact absurd rfl hdne
      · rfl]
    rw [htk]
    simp only [Bool.false_eq_true, if_false]
    rw [Option.some.injEq, Prod.mk.injEq]
    refine ⟨?_, rfl⟩
    simp [List.length_append, List.length_cons]
    omega
  have hlne : (ys ++ s1 :: (ms ++ s2 :: ds)) ≠ [] := by
    intro he
    have hlen := congrArg List.length he
    simp [List.length_append, List.length_cons] at hlen
  exact subPass_single_full hlne hdm rfl

theorem C9_delimiter_pass_no_validation_witness :
    subPass delimMatch delimRepl
      ("2024".toList ++ '.' :: ("12".toList ++ '/' :: "31".toList)) =
      some (fmtDate (decDigits ("2024".toList.map pyDigitVal))
        (decDigits ("12".toList.map pyDigitVal))
        (decDigits ("31".toList.map pyDigitVal))) :=
  C9_delimiter_pass_no_validation.2.2 "2024".toList "12".toList "31".toList '.' '/'
    (by decide) (by decide) (by decide) (by decide) (by decide) (by decide)
    (by decide) (by decide)

end DateNormalizer
